import Mathlib

/-!
Verification of the supermarket inventory/billing core (`src/main.py`).

The Python core is embedded shallowly:

* `Product` mirrors the `Product` dataclass; Python `float` prices are
  modelled as exact rationals (`Rat`), Python `int` as `Int`.
* The `heapq` min-heap of `(quantity, id)` snapshots is modelled by the
  sorted sequence of its entries (`List (Int × Int)` sorted by the
  lexicographic tuple order `keyLe`); `heapq.heappush` becomes ordered
  insertion and `heapq.heappop` removal of the head, which is observably
  the same pop order as the binary heap.
* The singly linked product list plus the `{id: Node}` hash index are
  modelled by the insertion-ordered `List Product` itself: `index.get(pid)`
  is lookup of the (unique) record with that id, and in-place mutation of a
  shared node becomes a pointwise update of the record with that id.
* Python dicts (the cart) are modelled as association lists in insertion
  order: writing an existing key updates it in place, a new key is
  appended, `pop` removes the entry.
* Functions returning user-facing message strings are modelled by small
  result types whose constructors are in bijection with the distinct
  messages of the source; the numeric/format rendering of a message is
  presentation and not modelled.
-/

/-- The `Product` dataclass (src/main.py lines 15-20). -/
structure Product where
  id : Int
  name : String
  price : Rat
  quantity : Int
deriving DecidableEq

/-- Python's lexicographic comparison of `(qty, id)` tuples, the order by
which `heapq` pops heap entries. -/
def keyLe (a b : Int × Int) : Prop :=
  a.1 < b.1 ∨ (a.1 = b.1 ∧ a.2 ≤ b.2)

instance : DecidableRel keyLe := fun a b =>
  inferInstanceAs (Decidable (a.1 < b.1 ∨ (a.1 = b.1 ∧ a.2 ≤ b.2)))

instance : IsTotal (Int × Int) keyLe :=
  ⟨fun a b => by unfold keyLe; omega⟩

instance : IsTrans (Int × Int) keyLe :=
  ⟨fun _ _ _ => by unfold keyLe; omega⟩

instance : IsAntisymm (Int × Int) keyLe :=
  ⟨fun a b h1 h2 => by
    obtain ⟨a1, a2⟩ := a
    obtain ⟨b1, b2⟩ := b
    unfold keyLe at h1 h2
    simp only [Prod.mk.injEq]
    omega⟩

/-- `heapq.heappush` on the sorted-sequence model of the heap. -/
def heapPush (h : List (Int × Int)) (x : Int × Int) : List (Int × Int) :=
  List.orderedInsert keyLe x h

/-- The `Inventory` class state (src/main.py lines 31-43): the linked
list/hash index pair is the ordered product list, `_low_stock_heap` is the
sorted sequence of heap entries. -/
structure Inventory where
  products : List Product
  low_stock_heap : List (Int × Int)
deriving DecidableEq

/-- `Inventory.__init__` (lines 39-43). -/
def Inventory.empty : Inventory := ⟨[], []⟩

/-- `Inventory.find` (lines 67-69): `index.get(pid)`. -/
def Inventory.find (inv : Inventory) (pid : Int) : Option Product :=
  inv.products.find? (fun p => p.id == pid)

/-- `Inventory.add_product` (lines 45-57): reject a duplicate id, else
append to the list, register in the index and push a heap snapshot. -/
def Inventory.add_product (inv : Inventory) (prod : Product) : Inventory × Bool :=
  if inv.products.any (fun p => p.id == prod.id) then (inv, false)
  else
    ({ products := inv.products ++ [prod],
       low_stock_heap := heapPush inv.low_stock_heap (prod.quantity, prod.id) },
     true)

/-- `Inventory.to_list` (lines 59-65): traversal of the linked list. -/
def Inventory.to_list (inv : Inventory) : List Product :=
  inv.products

/-- `Inventory.update_quantity` (lines 71-77): no-op if the id is unknown,
else set the record's quantity in place and push a fresh heap snapshot. -/
def Inventory.update_quantity (inv : Inventory) (pid new_qty : Int) : Inventory :=
  match inv.find pid with
  | none => inv
  | some _ =>
    { products :=
        inv.products.map (fun p => if p.id = pid then { p with quantity := new_qty } else p),
      low_stock_heap := heapPush inv.low_stock_heap (new_qty, pid) }

/-- Validation of a popped heap entry (lines 87-88 of `k_lowest_stock`):
`prod = self.find(pid); if prod and prod.quantity == qty` — yields the
found product when its current quantity matches the popped snapshot. -/
def validate (f : Int → Option Product) (e : Int × Int) : Option Product :=
  match f e.2 with
  | some p => if p.quantity = e.1 then some p else none
  | none => none

/-- The pop loop of `Inventory.k_lowest_stock` (lines 84-90): pop entries
while the heap is nonempty and fewer than `k` valid results were seen;
returns `(results, popped, remaining heap)`. -/
def kLowAux (f : Int → Option Product) :
    List (Int × Int) → Nat → List Product × List (Int × Int) × List (Int × Int)
  | [], _ => ([], [], [])
  | (q, pid) :: rest, 0 => ([], [], (q, pid) :: rest)
  | (q, pid) :: rest, k + 1 =>
    match validate f (q, pid) with
    | some p =>
      let r := kLowAux f rest k
      (p :: r.1, (q, pid) :: r.2.1, r.2.2)
    | none =>
      let r := kLowAux f rest (k + 1)
      (r.1, (q, pid) :: r.2.1, r.2.2)

/-- `Inventory.k_lowest_stock` (lines 79-94): run the pop loop, then push
every popped entry back; returns the results and the post-call inventory. -/
def Inventory.k_lowest_stock (inv : Inventory) (k : Nat) : List Product × Inventory :=
  let r := kLowAux inv.find inv.low_stock_heap k
  (r.1, { inv with low_stock_heap := r.2.1.foldl heapPush r.2.2 })

/-- `dict.get(pid, 0)`-style read of the cart association list. -/
def cartGet (c : List (Int × Int)) (pid : Int) : Int :=
  match c.find? (fun e => e.1 == pid) with
  | some e => e.2
  | none => 0

/-- `pid in cart` membership test. -/
def cartMem (c : List (Int × Int)) (pid : Int) : Bool :=
  c.any (fun e => e.1 == pid)

/-- `cart[pid] = v`: dict write — update the existing entry in place,
otherwise append a new entry. -/
def cartSet (c : List (Int × Int)) (pid v : Int) : List (Int × Int) :=
  if cartMem c pid then c.map (fun e => if e.1 = pid then (pid, v) else e)
  else c ++ [(pid, v)]

/-- `cart.pop(pid, None)`: remove the entry with key `pid`. -/
def cartPop (c : List (Int × Int)) (pid : Int) : List (Int × Int) :=
  c.filter (fun e => e.1 != pid)

/-- The distinct return messages of `BillingSystem.add_to_cart`
(lines 113-126); `added` carries the name, quantity and line total shown
in the success message. -/
inductive AddResult where
  | notFound
  | invalidQuantity
  | insufficientStock
  | added (name : String) (qty : Int) (lineTotal : Rat)
deriving DecidableEq

/-- The distinct return messages of `BillingSystem.undo_last`
(lines 128-143).  `cartKeyError` models the `KeyError` Python raises at
`self.cart[pid] -= qty` when the cart has no such key (inventory already
mutated, no cart mutation). -/
inductive UndoResult where
  | nothingToUndo
  | productMissing
  | cartKeyError
  | undone (qty : Int) (name : String)
  | unknownAction
deriving DecidableEq

/-- The `BillingSystem` class state (src/main.py lines 105-111). -/
structure BillingSystem where
  inventory : Inventory
  cart : List (Int × Int)
  undo_stack : List (String × Int × Int)
  customer_name : String
  subtotal : Rat
  discount : Rat
deriving DecidableEq

/-- `BillingSystem.__init__` (lines 105-111). -/
def BillingSystem.init (inv : Inventory) : BillingSystem :=
  ⟨inv, [], [], "", 0, 0⟩

/-- `BillingSystem.add_to_cart` (lines 113-126): validate, then decrement
stock (direct mutation + `update_quantity`, which also pushes the heap
snapshot), increment the cart entry and push `("add", pid, qty)` onto the
undo stack. -/
def BillingSystem.add_to_cart (b : BillingSystem) (pid qty : Int) :
    BillingSystem × AddResult :=
  match b.inventory.find pid with
  | none => (b, .notFound)
  | some prod =>
    if qty ≤ 0 then (b, .invalidQuantity)
    else if prod.quantity < qty then (b, .insufficientStock)
    else
      ({ b with
          inventory := b.inventory.update_quantity pid (prod.quantity - qty),
          cart := cartSet b.cart pid (cartGet b.cart pid + qty),
          undo_stack := b.undo_stack ++ [("add", pid, qty)] },
       .added prod.name qty (prod.price * (qty : Rat)))

/-- `BillingSystem.undo_last` (lines 128-143): pop the newest action; for
an `"add"` action restore the stock (again via `update_quantity`, pushing
a heap snapshot), decrement the cart entry and drop it if it reaches ≤ 0. -/
def BillingSystem.undo_last (b : BillingSystem) : BillingSystem × UndoResult :=
  match b.undo_stack.getLast? with
  | none => (b, .nothingToUndo)
  | some (action, pid, qty) =>
    let b1 : BillingSystem := { b with undo_stack := b.undo_stack.dropLast }
    if action = "add" then
      match b1.inventory.find pid with
      | none => (b1, .productMissing)
      | some prod =>
        let b2 : BillingSystem :=
          { b1 with inventory := b1.inventory.update_quantity pid (prod.quantity + qty) }
        match b2.cart.find? (fun e => e.1 == pid) with
        | none => (b2, .cartKeyError)
        | some e =>
          let v := e.2 - qty
          let c1 := cartSet b2.cart pid v
          ({ b2 with cart := if v ≤ 0 then cartPop c1 pid else c1 },
           .undone qty prod.name)
    else (b1, .unknownAction)

/-- `BillingSystem.compute_totals` (lines 145-157): recompute the subtotal
from the cart and current prices, then pick the discount slab.  The float
factors `0.10` and `0.05` are the exact rationals `10/100` and `5/100`. -/
def BillingSystem.compute_totals (b : BillingSystem) : BillingSystem :=
  let st : Rat := b.cart.foldl (fun acc e =>
    match b.inventory.find e.1 with
    | some prod => acc + prod.price * (e.2 : Rat)
    | none => acc) 0
  let d : Rat :=
    if st > 500 then ((10 : Rat) / 100) * st
    else if st > 200 then ((5 : Rat) / 100) * st
    else 0
  { b with subtotal := st, discount := d }

/-- `BillingSystem.checkout_summary` (lines 159-190): recompute totals and
render the receipt; the structured content of the receipt is the triple
(subtotal, discount, total = subtotal - discount).  The textual rendering
and wall-clock timestamp are presentation and not modelled. -/
def BillingSystem.checkout_summary (b : BillingSystem) :
    BillingSystem × (Rat × Rat × Rat) :=
  let b1 := b.compute_totals
  (b1, (b1.subtotal, b1.discount, b1.subtotal - b1.discount))

/-- `BillingSystem.clear` (lines 192-197). -/
def BillingSystem.clear (b : BillingSystem) : BillingSystem :=
  { b with cart := [], undo_stack := [], customer_name := "", subtotal := 0, discount := 0 }

/-- `App._on_checkout` (lines 525-538), the checkout entry point: reject an
empty cart without mutation, else produce the receipt (`checkout_summary`)
and clear the billing state.  Returns the receipt totals on success. -/
def BillingSystem.on_checkout (b : BillingSystem) :
    BillingSystem × Option (Rat × Rat × Rat) :=
  if b.cart.isEmpty then (b, none)
  else
    let r := b.checkout_summary
    (r.1.clear, some r.2)

/-- `App._on_clear_cart` (lines 540-551): return every cart entry's
quantity to inventory (via `update_quantity`, skipping unknown ids), then
`BillingSystem.clear`. -/
def BillingSystem.on_clear_cart (b : BillingSystem) : BillingSystem :=
  let inv := b.cart.foldl (fun acc e =>
    match acc.find e.1 with
    | some prod => acc.update_quantity e.1 (prod.quantity + e.2)
    | none => acc) b.inventory
  BillingSystem.clear { b with inventory := inv }

/-- Order on products by `(quantity, id)`, the order in which
`k_lowest_stock` reports results. -/
def prodLe (p q : Product) : Prop :=
  keyLe (p.quantity, p.id) (q.quantity, q.id)

instance : DecidableRel prodLe := fun p q =>
  inferInstanceAs (Decidable (keyLe (p.quantity, p.id) (q.quantity, q.id)))

instance : IsTotal Product prodLe :=
  ⟨fun p q => total_of keyLe (p.quantity, p.id) (q.quantity, q.id)⟩

instance : IsTrans Product prodLe :=
  ⟨fun _ _ _ h1 h2 => trans_of keyLe h1 h2⟩

/-- The products sorted ascending by `(quantity, id)`. -/
def sortedByStock (ps : List Product) : List Product :=
  List.insertionSort prodLe ps

/-- The heap-completeness invariant of the Inventory component: every
product's current `(quantity, id)` pair is present in the heap. -/
def HeapComplete (inv : Inventory) : Prop :=
  ∀ p ∈ inv.products, (p.quantity, p.id) ∈ inv.low_stock_heap

/-- The heap model invariant: the entry sequence is sorted. -/
def HeapSorted (inv : Inventory) : Prop :=
  List.Sorted keyLe inv.low_stock_heap

/-- Each product's current `(quantity, id)` snapshot occurs exactly once in
the heap (all other entries being stale or absent). -/
def HeapUniqueValid (inv : Inventory) : Prop :=
  ∀ p ∈ inv.products, inv.low_stock_heap.count (p.quantity, p.id) = 1

/-- Product ids are pairwise distinct (the hash-index invariant). -/
def IdsNodup (inv : Inventory) : Prop :=
  (inv.products.map (fun p => p.id)).Nodup

/-- Cart well-formedness: keys are distinct (dict) and all reserved
quantities are positive. -/
def CartWF (c : List (Int × Int)) : Prop :=
  (c.map (fun e => e.1)).Nodup ∧ ∀ e ∈ c, 0 < e.2

/-- One inventory-level mutation: an `add_product` call or a quantity
change (`update_quantity`). -/
inductive InvStep : Inventory → Inventory → Prop where
  | add (inv : Inventory) (prod : Product) : InvStep inv (inv.add_product prod).1
  | update (inv : Inventory) (pid q : Int) : InvStep inv (inv.update_quantity pid q)

/-- Inventory states reachable from the empty inventory by `add_product`
calls and quantity changes. -/
def InvReachable (inv : Inventory) : Prop :=
  Relation.ReflTransGen InvStep Inventory.empty inv

/-- One step of the public billing API, as dispatched by the GUI layer. -/
inductive SysStep : BillingSystem → BillingSystem → Prop where
  | add_product (b : BillingSystem) (prod : Product) :
      SysStep b { b with inventory := (b.inventory.add_product prod).1 }
  | reserve (b : BillingSystem) (pid qty : Int) : SysStep b (b.add_to_cart pid qty).1
  | undo (b : BillingSystem) : SysStep b b.undo_last.1
  | checkout (b : BillingSystem) : SysStep b b.on_checkout.1
  | clear_cart (b : BillingSystem) : SysStep b b.on_clear_cart
  | totals (b : BillingSystem) : SysStep b b.compute_totals
  | set_customer (b : BillingSystem) (s : String) :
      SysStep b { b with customer_name := s }

/-- Billing states reachable from a freshly constructed system over an
empty inventory through the public operations. -/
def SysReachable (b : BillingSystem) : Prop :=
  Relation.ReflTransGen SysStep (BillingSystem.init Inventory.empty) b

/-- Every action on the undo stack names a product id present in the
inventory index. -/
def UndoIdsPresent (b : BillingSystem) : Prop :=
  ∀ a ∈ b.undo_stack, ∃ p ∈ b.inventory.products, p.id = a.2.1

/-- The current unit price used for a cart line; 0 when the id is unknown
(in which case `compute_totals` skips the line, contributing 0). -/
def linePrice (inv : Inventory) (pid : Int) : Rat :=
  match inv.find pid with
  | some p => p.price
  | none => 0

/-- Some product with id `i` is present in the inventory index. -/
def IdPresent (inv : Inventory) (i : Int) : Prop :=
  ∃ p ∈ inv.products, p.id = i

/-- A small concrete inventory used to instantiate theorems with
hypotheses: one product, one matching heap snapshot. -/
def sampleInv : Inventory :=
  { products := [⟨1, "X", 100, 5⟩], low_stock_heap := [(5, 1)] }

/-- A small concrete billing state over `sampleInv` with one cart line. -/
def sampleB : BillingSystem :=
  { inventory := sampleInv, cart := [(1, 3)], undo_stack := [],
    customer_name := "", subtotal := 0, discount := 0 }

/-- The concrete scenario of spec section 8: empty inventory, add product
(1, "Rice", 50.00, 100), then a successful reserve(1, 10). -/
def riceB : BillingSystem :=
  ((BillingSystem.init
    (Inventory.empty.add_product ⟨1, "Rice", 50, 100⟩).1).add_to_cart 1 10).1

/-! ### Heap lemmas -/

theorem mem_heapPush {h : List (Int × Int)} {x y : Int × Int} :
    x ∈ heapPush h y ↔ x = y ∨ x ∈ h :=
  List.mem_orderedInsert keyLe

theorem heapPush_sorted {h : List (Int × Int)} (hs : List.Sorted keyLe h)
    (x : Int × Int) : List.Sorted keyLe (heapPush h x) :=
  hs.orderedInsert x h

theorem foldl_heapPush_perm :
    ∀ (pop rem : List (Int × Int)), (pop.foldl heapPush rem).Perm (pop ++ rem)
  | [], rem => List.Perm.refl rem
  | x :: pop, rem => by
    simp only [List.foldl_cons, List.cons_append]
    exact ((foldl_heapPush_perm pop (heapPush rem x)).trans
      ((List.perm_orderedInsert keyLe x rem).append_left pop)).trans
      List.perm_middle

theorem foldl_heapPush_sorted :
    ∀ (pop rem : List (Int × Int)), List.Sorted keyLe rem →
      List.Sorted keyLe (pop.foldl heapPush rem)
  | [], _, hs => hs
  | x :: pop, rem, hs =>
    foldl_heapPush_sorted pop (heapPush rem x) (heapPush_sorted hs x)

/-- Pushing popped entries back into the (sorted) heap restores it
exactly. -/
theorem foldl_heapPush_of_sorted {pop rem : List (Int × Int)}
    (hs : List.Sorted keyLe (pop ++ rem)) :
    pop.foldl heapPush rem = pop ++ rem :=
  List.eq_of_perm_of_sorted (foldl_heapPush_perm pop rem)
    (foldl_heapPush_sorted pop rem (hs.sublist (List.sublist_append_right pop rem)))
    hs

theorem kLowAux_append (f : Int → Option Product) :
    ∀ (h : List (Int × Int)) (k : Nat),
      (kLowAux f h k).2.1 ++ (kLowAux f h k).2.2 = h
  | [], _ => rfl
  | (_, _) :: _, 0 => rfl
  | (q, pid) :: rest, k + 1 => by
    cases hv : validate f (q, pid) <;>
      simp only [kLowAux, hv] <;>
      simp [kLowAux_append f rest]

theorem kLowAux_results (f : Int → Option Product) :
    ∀ (h : List (Int × Int)) (k : Nat),
      (kLowAux f h k).1 = (h.filterMap (validate f)).take k
  | [], _ => by simp [kLowAux]
  | (q, pid) :: rest, 0 => by simp [kLowAux]
  | (q, pid) :: rest, k + 1 => by
    cases hv : validate f (q, pid) <;>
      simp only [kLowAux, hv, List.filterMap_cons] <;>
      simp [kLowAux_results f rest]

/-- A `k_lowest_stock` read leaves the inventory (in particular the heap)
exactly as it was. -/
theorem k_lowest_stock_preserves (inv : Inventory) (k : Nat)
    (hs : HeapSorted inv) : (inv.k_lowest_stock k).2 = inv := by
  have hap := kLowAux_append inv.find inv.low_stock_heap k
  have hsorted : List.Sorted keyLe
      ((kLowAux inv.find inv.low_stock_heap k).2.1 ++
        (kLowAux inv.find inv.low_stock_heap k).2.2) := by
    rw [hap]; exact hs
  have : (kLowAux inv.find inv.low_stock_heap k).2.1.foldl heapPush
      (kLowAux inv.find inv.low_stock_heap k).2.2 = inv.low_stock_heap := by
    rw [foldl_heapPush_of_sorted hsorted, hap]
  simp [Inventory.k_lowest_stock, this]

/-! ### Lookup lemmas -/

theorem find_mem {inv : Inventory} {pid : Int} {p : Product}
    (h : inv.find pid = some p) : p ∈ inv.products ∧ p.id = pid := by
  refine ⟨List.mem_of_find?_eq_some h, ?_⟩
  have := List.find?_some h
  simpa using this

theorem find?_id_eq_of_mem :
    ∀ (l : List Product), (l.map (fun p => p.id)).Nodup → ∀ {p : Product}, p ∈ l →
      l.find? (fun x => x.id == p.id) = some p
  | [], _, _, hp => by cases hp
  | a :: t, hn, p, hp => by
    simp only [List.map_cons, List.nodup_cons] at hn
    rcases List.mem_cons.1 hp with rfl | hpt
    · exact List.find?_cons_of_pos _ (by simp)
    · have hne : a.id ≠ p.id := fun he => hn.1 (he ▸ List.mem_map_of_mem _ hpt)
      rw [List.find?_cons_of_neg _ (by simp [hne])]
      exact find?_id_eq_of_mem t hn.2 hpt

theorem find_eq_of_mem {inv : Inventory} (hn : IdsNodup inv) {p : Product}
    (hp : p ∈ inv.products) : inv.find p.id = some p :=
  find?_id_eq_of_mem inv.products hn hp

theorem validate_eq_some {f : Int → Option Product} {e : Int × Int} {p : Product}
    (h : validate f e = some p) : f e.2 = some p ∧ p.quantity = e.1 := by
  unfold validate at h
  cases hf : f e.2 with
  | none =>
    simp only [hf] at h
    exact Option.noConfusion h
  | some p' =>
    simp only [hf] at h
    by_cases hq : p'.quantity = e.1
    · rw [if_pos hq] at h
      cases h
      exact ⟨rfl, hq⟩
    · rw [if_neg hq] at h
      exact Option.noConfusion h

theorem validate_key {inv : Inventory} {e : Int × Int} {p : Product}
    (h : validate inv.find e = some p) : (p.quantity, p.id) = e := by
  obtain ⟨hf, hq⟩ := validate_eq_some h
  obtain ⟨-, hid⟩ := find_mem hf
  rw [hq, hid]

theorem validate_mem {inv : Inventory} {e : Int × Int} {p : Product}
    (h : validate inv.find e = some p) : p ∈ inv.products ∧ inv.find p.id = some p := by
  obtain ⟨hf, -⟩ := validate_eq_some h
  obtain ⟨hm, hid⟩ := find_mem hf
  exact ⟨hm, by rw [hid]; exact hf⟩

/-! ### The valid snapshots of a sorted heap -/

theorem sorted_filterMap_validate {inv : Inventory} {h : List (Int × Int)}
    (hs : List.Sorted keyLe h) :
    List.Sorted prodLe (h.filterMap (validate inv.find)) := by
  refine List.Pairwise.filterMap (validate inv.find) ?_ hs
  intro a a' hr b hb b' hb'
  have kb := validate_key (Option.mem_def.1 hb)
  have kb' := validate_key (Option.mem_def.1 hb')
  unfold prodLe
  rw [kb, kb']
  exact hr

theorem map_key_filterMap_validate (f : Int → Option Product)
    (hk : ∀ e p, validate f e = some p → (p.quantity, p.id) = e) :
    ∀ h : List (Int × Int),
      (h.filterMap (validate f)).map (fun p => (p.quantity, p.id)) =
        h.filter (fun e => (validate f e).isSome)
  | [] => rfl
  | e :: t => by
    cases hv : validate f e with
    | none =>
      simp only [List.filterMap_cons, hv, List.filter_cons, Option.isSome_none]
      simpa using map_key_filterMap_validate f hk t
    | some p =>
      simp only [List.filterMap_cons, hv, List.filter_cons, Option.isSome_some,
        List.map_cons, hk e p hv]
      simpa using map_key_filterMap_validate f hk t

theorem nodup_key_filterMap_validate {inv : Inventory} (hu : HeapUniqueValid inv) :
    ((inv.low_stock_heap.filterMap (validate inv.find)).map
      (fun p => (p.quantity, p.id))).Nodup := by
  rw [map_key_filterMap_validate inv.find (fun e p h => validate_key h)]
  rw [List.nodup_iff_sublist]
  intro a hsub
  have ha : a ∈ inv.low_stock_heap.filter (fun e => (validate inv.find e).isSome) :=
    hsub.subset (List.mem_cons_self a [a])
  obtain ⟨hmem, hvs⟩ := List.mem_filter.1 ha
  obtain ⟨p, hp⟩ := Option.isSome_iff_exists.1 (by simpa using hvs)
  have hkey : (p.quantity, p.id) = a := validate_key hp
  have hmem' : p ∈ inv.products := (validate_mem hp).1
  have hsub2 : [a, a].Sublist inv.low_stock_heap :=
    hsub.trans (List.filter_sublist inv.low_stock_heap)
  have hcnt : List.count a [a, a] ≤ List.count a inv.low_stock_heap :=
    hsub2.count_le a
  have h2 : List.count a inv.low_stock_heap = 1 := by
    rw [← hkey]; exact hu p hmem'
  simp only [List.count_cons_self, List.count_singleton] at hcnt
  omega

theorem mem_filterMap_validate {inv : Inventory} (hn : IdsNodup inv)
    (hc : HeapComplete inv) {p : Product} :
    p ∈ inv.low_stock_heap.filterMap (validate inv.find) ↔ p ∈ inv.products := by
  constructor
  · intro h
    obtain ⟨e, -, hv⟩ := List.mem_filterMap.1 h
    exact (validate_mem hv).1
  · intro h
    refine List.mem_filterMap.2 ⟨(p.quantity, p.id), hc p h, ?_⟩
    unfold validate
    simp only
    rw [find_eq_of_mem hn h]
    simp

/-- Two lists sorted by a common `(Int × Int)`-valued key, with no
duplicate keys and the same members, are equal. -/
theorem sorted_key_ext {α : Type} (key : α → Int × Int) :
    ∀ (l1 l2 : List α),
      List.Sorted (fun a b => keyLe (key a) (key b)) l1 →
      List.Sorted (fun a b => keyLe (key a) (key b)) l2 →
      (l1.map key).Nodup → (l2.map key).Nodup →
      (∀ a, a ∈ l1 ↔ a ∈ l2) → l1 = l2
  | [], [], _, _, _, _, _ => rfl
  | [], b :: t2, _, _, _, _, hm => by
    exact absurd ((hm b).2 (List.mem_cons_self b t2)) (List.not_mem_nil b)
  | a :: t1, [], _, _, _, _, hm => by
    exact absurd ((hm a).1 (List.mem_cons_self a t1)) (List.not_mem_nil a)
  | a :: t1, b :: t2, hs1, hs2, hn1, hn2, hm => by
    simp only [List.map_cons, List.nodup_cons] at hn1 hn2
    have hab : a = b := by
      rcases List.mem_cons.1 ((hm a).1 (List.mem_cons_self a t1)) with h | hat2
      · exact h
      rcases List.mem_cons.1 ((hm b).2 (List.mem_cons_self b t2)) with h | hbt1
      · exact h.symm
      have h1 : keyLe (key a) (key b) := List.rel_of_sorted_cons hs1 b hbt1
      have h2 : keyLe (key b) (key a) := List.rel_of_sorted_cons hs2 a hat2
      have hk : key a = key b := antisymm h1 h2
      exact absurd (hk ▸ List.mem_map_of_mem key hbt1) hn1.1
    subst hab
    have htail : ∀ x, x ∈ t1 ↔ x ∈ t2 := by
      intro x
      constructor
      · intro hx
        rcases List.mem_cons.1 ((hm x).1 (List.mem_cons.2 (Or.inr hx))) with rfl | h
        · exact absurd (List.mem_map_of_mem key hx) hn1.1
        · exact h
      · intro hx
        rcases List.mem_cons.1 ((hm x).2 (List.mem_cons.2 (Or.inr hx))) with rfl | h
        · exact absurd (List.mem_map_of_mem key hx) hn2.1
        · exact h
    exact congrArg (a :: ·) (sorted_key_ext key t1 t2 hs1.of_cons hs2.of_cons hn1.2 hn2.2 htail)

theorem nodup_key_of_ids {ps : List Product} (hn : (ps.map (fun p => p.id)).Nodup) :
    (ps.map (fun p => (p.quantity, p.id))).Nodup := by
  apply List.Nodup.of_map Prod.snd
  rw [List.map_map]
  simpa [Function.comp] using hn

theorem key_sortedByStock_nodup {ps : List Product}
    (hn : (ps.map (fun p => p.id)).Nodup) :
    ((sortedByStock ps).map (fun p => (p.quantity, p.id))).Nodup := by
  have hperm : ((sortedByStock ps).map (fun p => (p.quantity, p.id))).Perm
      (ps.map (fun p => (p.quantity, p.id))) :=
    (List.perm_insertionSort prodLe ps).map _
  exact hperm.nodup_iff.2 (nodup_key_of_ids hn)

/-- Under the heap invariants, the valid snapshots of the heap, in heap
order, are exactly the products sorted by `(quantity, id)`. -/
theorem filterMap_validate_eq_sorted {inv : Inventory}
    (hs : HeapSorted inv) (hn : IdsNodup inv) (hc : HeapComplete inv)
    (hu : HeapUniqueValid inv) :
    inv.low_stock_heap.filterMap (validate inv.find) = sortedByStock inv.products := by
  apply sorted_key_ext (fun p => (p.quantity, p.id))
  · exact sorted_filterMap_validate hs
  · exact List.sorted_insertionSort prodLe inv.products
  · exact nodup_key_filterMap_validate hu
  · exact key_sortedByStock_nodup hn
  · intro a
    rw [mem_filterMap_validate hn hc]
    exact (List.mem_insertionSort prodLe).symm

theorem k_lowest_stock_results {inv : Inventory} (k : Nat)
    (hs : HeapSorted inv) (hn : IdsNodup inv) (hc : HeapComplete inv)
    (hu : HeapUniqueValid inv) :
    (inv.k_lowest_stock k).1 = (sortedByStock inv.products).take k := by
  show (kLowAux inv.find inv.low_stock_heap k).1 = _
  rw [kLowAux_results, filterMap_validate_eq_sorted hs hn hc hu]

theorem k_lowest_stock_sorted {inv : Inventory} (k : Nat) (hs : HeapSorted inv) :
    List.Sorted prodLe (inv.k_lowest_stock k).1 := by
  show List.Sorted prodLe (kLowAux inv.find inv.low_stock_heap k).1
  rw [kLowAux_results]
  exact List.Pairwise.sublist (List.take_sublist k _) (sorted_filterMap_validate hs)

theorem k_lowest_stock_current {inv : Inventory} {k : Nat} {p : Product}
    (hp : p ∈ (inv.k_lowest_stock k).1) : inv.find p.id = some p := by
  have hp' : p ∈ (kLowAux inv.find inv.low_stock_heap k).1 := hp
  rw [kLowAux_results] at hp'
  have hp2 := (List.take_sublist k _).subset hp'
  obtain ⟨e, -, hv⟩ := List.mem_filterMap.1 hp2
  exact (validate_mem hv).2

/-! ### Shape lemmas for the mutating operations -/

theorem update_quantity_cases (inv : Inventory) (pid q : Int) :
    (inv.find pid = none ∧ inv.update_quantity pid q = inv) ∨
    (∃ p1, inv.find pid = some p1 ∧
      inv.update_quantity pid q =
        { products := inv.products.map
            (fun p => if p.id = pid then { p with quantity := q } else p),
          low_stock_heap := heapPush inv.low_stock_heap (q, pid) }) := by
  unfold Inventory.update_quantity
  cases hf : inv.find pid with
  | none => exact Or.inl ⟨rfl, rfl⟩
  | some p1 => exact Or.inr ⟨p1, rfl, rfl⟩

theorem add_product_cases (inv : Inventory) (prod : Product) :
    (inv.add_product prod = (inv, false)) ∨
    ((∀ p ∈ inv.products, p.id ≠ prod.id) ∧
      inv.add_product prod =
        ({ products := inv.products ++ [prod],
           low_stock_heap := heapPush inv.low_stock_heap (prod.quantity, prod.id) },
         true)) := by
  unfold Inventory.add_product
  by_cases h : inv.products.any (fun p => p.id == prod.id) = true
  · exact Or.inl (by rw [if_pos h])
  · refine Or.inr ⟨?_, by rw [if_neg h]⟩
    intro p hp he
    exact h (List.any_eq_true.2 ⟨p, hp, by simp [he]⟩)

theorem heapComplete_update {inv : Inventory} (hc : HeapComplete inv) (pid q : Int) :
    HeapComplete (inv.update_quantity pid q) := by
  rcases update_quantity_cases inv pid q with ⟨-, he⟩ | ⟨p1, -, he⟩
  · rw [he]; exact hc
  · rw [he]
    intro p hp
    simp only [List.mem_map] at hp
    obtain ⟨p0, hp0, rfl⟩ := hp
    by_cases hid : p0.id = pid
    · rw [if_pos hid]
      exact mem_heapPush.2 (Or.inl (by simp [hid]))
    · rw [if_neg hid]
      exact mem_heapPush.2 (Or.inr (hc p0 hp0))

theorem heapComplete_add {inv : Inventory} (hc : HeapComplete inv) (prod : Product) :
    HeapComplete (inv.add_product prod).1 := by
  rcases add_product_cases inv prod with he | ⟨-, he⟩
  · rw [he]; exact hc
  · rw [he]
    intro p hp
    rcases List.mem_append.1 hp with hp0 | hp0
    · exact mem_heapPush.2 (Or.inr (hc p hp0))
    · rcases List.mem_singleton.1 hp0 with rfl
      exact mem_heapPush.2 (Or.inl rfl)

theorem heapSorted_update {inv : Inventory} (hs : HeapSorted inv) (pid q : Int) :
    HeapSorted (inv.update_quantity pid q) := by
  rcases update_quantity_cases inv pid q with ⟨-, he⟩ | ⟨p1, -, he⟩
  · rw [he]; exact hs
  · rw [he]; exact heapPush_sorted hs (q, pid)

theorem heapSorted_add {inv : Inventory} (hs : HeapSorted inv) (prod : Product) :
    HeapSorted (inv.add_product prod).1 := by
  rcases add_product_cases inv prod with he | ⟨-, he⟩
  · rw [he]; exact hs
  · rw [he]; exact heapPush_sorted hs (prod.quantity, prod.id)

theorem update_quantity_ids (inv : Inventory) (pid q : Int) :
    (inv.update_quantity pid q).products.map (fun p => p.id) =
      inv.products.map (fun p => p.id) := by
  rcases update_quantity_cases inv pid q with ⟨-, he⟩ | ⟨p1, -, he⟩
  · rw [he]
  · rw [he]
    simp only [List.map_map]
    apply List.map_congr_left
    intro p _
    by_cases hp : p.id = pid <;> simp [hp, Function.comp]

theorem idsNodup_update {inv : Inventory} (hn : IdsNodup inv) (pid q : Int) :
    IdsNodup (inv.update_quantity pid q) := by
  unfold IdsNodup
  rw [update_quantity_ids]
  exact hn

theorem idsNodup_add {inv : Inventory} (hn : IdsNodup inv) (prod : Product) :
    IdsNodup (inv.add_product prod).1 := by
  rcases add_product_cases inv prod with he | ⟨hne, he⟩
  · rw [he]; exact hn
  · rw [he]
    unfold IdsNodup
    simp only [List.map_append, List.map_singleton]
    rw [List.nodup_append]
    refine ⟨hn, List.nodup_singleton _, ?_⟩
    intro x hx hx'
    rcases List.mem_singleton.1 hx' with rfl
    obtain ⟨p, hp, hpe⟩ := List.mem_map.1 hx
    exact hne p hp hpe

/-- Every inventory reachable by `add_product` calls and quantity changes
has a sorted heap, distinct ids, and a complete heap. -/
theorem invReachable_invariants {inv : Inventory} (hr : InvReachable inv) :
    HeapSorted inv ∧ IdsNodup inv ∧ HeapComplete inv := by
  induction hr with
  | refl =>
    exact ⟨List.sorted_nil, List.nodup_nil, fun p hp => absurd hp (List.not_mem_nil p)⟩
  | tail _ hstep ih =>
    obtain ⟨hs, hn, hc⟩ := ih
    cases hstep with
    | add prod =>
      exact ⟨heapSorted_add hs prod, idsNodup_add hn prod, heapComplete_add hc prod⟩
    | update pid q =>
      exact ⟨heapSorted_update hs pid q, idsNodup_update hn pid q,
        heapComplete_update hc pid q⟩

/-! ### `find` after `update_quantity` -/

theorem find?_map_presId (g : Product → Product) (hg : ∀ p, (g p).id = p.id) (j : Int) :
    ∀ l : List Product,
      (l.map g).find? (fun x => x.id == j) = (l.find? (fun x => x.id == j)).map g
  | [] => rfl
  | a :: t => by
    by_cases ha : a.id = j
    · rw [List.map_cons,
        List.find?_cons_of_pos _ (by simp [hg, ha]),
        List.find?_cons_of_pos _ (by simp [ha]),
        Option.map_some']
    · rw [List.map_cons,
        List.find?_cons_of_neg _ (by simp [hg, ha]),
        List.find?_cons_of_neg _ (by simp [ha])]
      exact find?_map_presId g hg j t

/-- Looking up `j` after setting the quantity of `i`: the record found
before, with its quantity overwritten when it is the updated one. -/
theorem find_update_quantity (inv : Inventory) (i x j : Int) :
    (inv.update_quantity i x).find j =
      (inv.find j).map (fun p => if p.id = i then { p with quantity := x } else p) := by
  rcases update_quantity_cases inv i x with ⟨hf, he⟩ | ⟨p1, hf, he⟩
  · rw [he]
    cases hj : inv.find j with
    | none => rfl
    | some p =>
      have hpid : p.id ≠ i := by
        intro hpi
        have : inv.find i = none := hf
        have hmem := List.mem_of_find?_eq_some hj
        have : (inv.products.find? (fun q => q.id == i)).isSome :=
          List.find?_isSome.2 ⟨p, hmem, by simp [hpi]⟩
        rw [show inv.products.find? (fun q => q.id == i) = inv.find i from rfl, hf] at this
        exact Bool.noConfusion this
      rw [Option.map_some', if_neg hpid]
  · rw [he]
    show (inv.products.map
        (fun p => if p.id = i then { p with quantity := x } else p)).find?
        (fun r => r.id == j) = _
    rw [find?_map_presId (fun p => if p.id = i then { p with quantity := x } else p)
      (fun p => by by_cases hp : p.id = i <;> simp [hp]) j]
    rfl

theorem find_update_quantity_self {inv : Inventory} {i : Int} {p : Product}
    (hf : inv.find i = some p) (x : Int) :
    (inv.update_quantity i x).find i = some { p with quantity := x } := by
  rw [find_update_quantity, hf, Option.map_some', if_pos (find_mem hf).2]

/-! ### Shape of `add_to_cart` -/

theorem add_to_cart_notFound {b : BillingSystem} {pid qty : Int}
    (hf : b.inventory.find pid = none) :
    b.add_to_cart pid qty = (b, AddResult.notFound) := by
  unfold BillingSystem.add_to_cart
  rw [hf]

theorem add_to_cart_invalidQty {b : BillingSystem} {pid qty : Int} {p : Product}
    (hf : b.inventory.find pid = some p) (hq : qty ≤ 0) :
    b.add_to_cart pid qty = (b, AddResult.invalidQuantity) := by
  unfold BillingSystem.add_to_cart
  rw [hf]
  simp only [if_pos hq]

theorem add_to_cart_insufficient {b : BillingSystem} {pid qty : Int} {p : Product}
    (hf : b.inventory.find pid = some p) (hq : ¬ qty ≤ 0) (hlt : p.quantity < qty) :
    b.add_to_cart pid qty = (b, AddResult.insufficientStock) := by
  unfold BillingSystem.add_to_cart
  rw [hf]
  simp only [if_neg hq, if_pos hlt]

theorem add_to_cart_success {b : BillingSystem} {pid qty : Int} {p : Product}
    (hf : b.inventory.find pid = some p) (hq : 0 < qty) (hle : qty ≤ p.quantity) :
    b.add_to_cart pid qty =
      ({ b with
          inventory := b.inventory.update_quantity pid (p.quantity - qty),
          cart := cartSet b.cart pid (cartGet b.cart pid + qty),
          undo_stack := b.undo_stack ++ [("add", pid, qty)] },
       AddResult.added p.name qty (p.price * (qty : Rat))) := by
  unfold BillingSystem.add_to_cart
  rw [hf]
  simp only [if_neg (by omega : ¬ qty ≤ 0), if_neg (by omega : ¬ p.quantity < qty)]

/-! ### Cart dictionary lemmas -/

theorem bool_eq_false {b : Bool} (h : ¬ b = true) : b = false := by
  cases b
  · rfl
  · exact absurd rfl h

theorem cartSet_of_mem (c : List (Int × Int)) (pid v : Int)
    (hm : cartMem c pid = true) :
    cartSet c pid v = c.map (fun e => if e.1 = pid then (pid, v) else e) := by
  unfold cartSet
  rw [if_pos hm]

theorem cartSet_of_not_mem (c : List (Int × Int)) (pid v : Int)
    (hm : cartMem c pid = false) :
    cartSet c pid v = c ++ [(pid, v)] := by
  unfold cartSet
  rw [if_neg (by simp [hm])]

theorem cartFind_of_not_mem {c : List (Int × Int)} {pid : Int}
    (hm : cartMem c pid = false) : c.find? (fun e => e.1 == pid) = none := by
  rw [List.find?_eq_none]
  intro e he
  have := List.any_eq_false.1 hm e he
  simpa using this

theorem cartGet_of_not_mem {c : List (Int × Int)} {pid : Int}
    (hm : cartMem c pid = false) : cartGet c pid = 0 := by
  unfold cartGet
  rw [cartFind_of_not_mem hm]

theorem find?_mapSet :
    ∀ (c : List (Int × Int)) (pid v : Int), cartMem c pid = true →
      (c.map (fun e => if e.1 = pid then (pid, v) else e)).find?
        (fun e => e.1 == pid) = some (pid, v)
  | [], pid, v, hm => by simp [cartMem] at hm
  | a :: t, pid, v, hm => by
    by_cases ha : a.1 = pid
    · rw [List.map_cons, if_pos ha, List.find?_cons_of_pos _ (by simp)]
    · rw [List.map_cons, if_neg ha, List.find?_cons_of_neg _ (by simp [ha])]
      apply find?_mapSet t pid v
      unfold cartMem at hm ⊢
      simpa [List.any_cons, ha] using hm

theorem find?_appendSet :
    ∀ (c : List (Int × Int)) (pid v : Int), cartMem c pid = false →
      (c ++ [(pid, v)]).find? (fun e => e.1 == pid) = some (pid, v)
  | [], pid, v, _ => by
    simp only [List.nil_append]
    exact List.find?_cons_of_pos _ (by simp)
  | a :: t, pid, v, hm => by
    rw [cartMem, List.any_cons, Bool.or_eq_false_iff] at hm
    rw [List.cons_append, List.find?_cons_of_neg _ (by simpa using hm.1)]
    exact find?_appendSet t pid v hm.2

theorem cartFind_cartSet (c : List (Int × Int)) (pid v : Int) :
    (cartSet c pid v).find? (fun e => e.1 == pid) = some (pid, v) := by
  by_cases hm : cartMem c pid = true
  · rw [cartSet_of_mem c pid v hm]
    exact find?_mapSet c pid v hm
  · have hm' := bool_eq_false hm
    rw [cartSet_of_not_mem c pid v hm']
    exact find?_appendSet c pid v hm'

theorem cartGet_cartSet (c : List (Int × Int)) (pid v : Int) :
    cartGet (cartSet c pid v) pid = v := by
  unfold cartGet
  rw [cartFind_cartSet]

theorem cartMem_cartSet (c : List (Int × Int)) (pid v : Int) :
    cartMem (cartSet c pid v) pid = true :=
  List.any_eq_true.2 ⟨(pid, v), List.mem_of_find?_eq_some (cartFind_cartSet c pid v),
    by simp⟩

theorem cartSet_cartSet (c : List (Int × Int)) (pid v w : Int) :
    cartSet (cartSet c pid v) pid w = cartSet c pid w := by
  have hmem := cartMem_cartSet c pid v
  have h3 := cartSet_of_mem (cartSet c pid v) pid w hmem
  by_cases hm : cartMem c pid = true
  · have h1 := cartSet_of_mem c pid v hm
    have h2 := cartSet_of_mem c pid w hm
    rw [h3, h1, h2, List.map_map]
    apply List.map_congr_left
    intro e _
    by_cases he : e.1 = pid <;> simp [he, Function.comp]
  · have hm' := bool_eq_false hm
    have h1 := cartSet_of_not_mem c pid v hm'
    have h2 := cartSet_of_not_mem c pid w hm'
    rw [h3, h1, h2, List.map_append]
    have hc : c.map (fun e => if e.1 = pid then (pid, w) else e) = c := by
      have hall : ∀ e ∈ c, (if e.1 = pid then (pid, w) else e) = e := by
        intro e he
        rw [if_neg (by simpa using List.any_eq_false.1 hm' e he)]
      rw [List.map_congr_left hall]
      simp
    rw [hc]
    simp

theorem cartPop_appendSet (c : List (Int × Int)) (pid v : Int)
    (hm : cartMem c pid = false) : cartPop (c ++ [(pid, v)]) pid = c := by
  unfold cartPop
  rw [List.filter_append]
  have h1 : c.filter (fun e => e.1 != pid) = c := by
    apply List.filter_eq_self.2
    intro e he
    simpa using List.any_eq_false.1 hm e he
  rw [h1]
  simp

theorem cartFind_eq_of_mem :
    ∀ (c : List (Int × Int)), (c.map (fun e => e.1)).Nodup →
      ∀ {e : Int × Int}, e ∈ c → c.find? (fun r => r.1 == e.1) = some e
  | [], _, _, he => by cases he
  | a :: t, hn, e, he => by
    simp only [List.map_cons, List.nodup_cons] at hn
    rcases List.mem_cons.1 he with rfl | het
    · exact List.find?_cons_of_pos _ (by simp)
    · have hne : a.1 ≠ e.1 := fun h => hn.1 (h ▸ List.mem_map_of_mem _ het)
      rw [List.find?_cons_of_neg _ (by simp [hne])]
      exact cartFind_eq_of_mem t hn.2 het

theorem cartGet_mem {c : List (Int × Int)} {pid : Int} (hm : cartMem c pid = true) :
    ∃ e ∈ c, e.1 = pid ∧ cartGet c pid = e.2 := by
  obtain ⟨e, hmem, hpe⟩ := List.any_eq_true.1 hm
  have hsome : (c.find? (fun r => r.1 == pid)).isSome :=
    List.find?_isSome.2 ⟨e, hmem, hpe⟩
  obtain ⟨e0, he0⟩ := Option.isSome_iff_exists.1 hsome
  refine ⟨e0, List.mem_of_find?_eq_some he0, by simpa using List.find?_some he0, ?_⟩
  unfold cartGet
  rw [he0]

theorem cartSet_get_self (c : List (Int × Int)) (pid : Int)
    (hn : (c.map (fun e => e.1)).Nodup) (hm : cartMem c pid = true) :
    cartSet c pid (cartGet c pid) = c := by
  rw [cartSet_of_mem c pid _ hm]
  have hall : ∀ e ∈ c, (if e.1 = pid then (pid, cartGet c pid) else e) = e := by
    intro e he
    by_cases hp : e.1 = pid
    · rw [if_pos hp]
      have hf : c.find? (fun r => r.1 == pid) = some e := by
        have := cartFind_eq_of_mem c hn he
        rwa [hp] at this
      have hg : cartGet c pid = e.2 := by
        unfold cartGet
        rw [hf]
      rw [hg, ← hp]
    · rw [if_neg hp]
  rw [List.map_congr_left hall]
  simp

/-! ### Shape of `undo_last` -/

theorem undo_last_empty {b : BillingSystem} (h : b.undo_stack = []) :
    b.undo_last = (b, UndoResult.nothingToUndo) := by
  unfold BillingSystem.undo_last
  rw [h]
  rfl

theorem undo_last_add_shape (b1 : BillingSystem) {u : List (String × Int × Int)}
    {pid qty : Int} {pr : Product} {w : Int}
    (hu : b1.undo_stack = u ++ [("add", pid, qty)])
    (hf : b1.inventory.find pid = some pr)
    (hc : b1.cart.find? (fun e => e.1 == pid) = some (pid, w)) :
    b1.undo_last =
      ({ b1 with
          undo_stack := u,
          inventory := b1.inventory.update_quantity pid (pr.quantity + qty),
          cart := if w - qty ≤ 0 then cartPop (cartSet b1.cart pid (w - qty)) pid
                  else cartSet b1.cart pid (w - qty) },
       UndoResult.undone qty pr.name) := by
  unfold BillingSystem.undo_last
  rw [hu, List.getLast?_concat]
  simp only [hf, hc, List.dropLast_concat, if_pos rfl]
  rw [if_pos trivial]

/-- `reserve` immediately followed by `undo_last` restores the product
record, the cart and the undo stack exactly (on a well-formed cart). -/
theorem reserve_undo_restore {b : BillingSystem} {pid qty : Int} {p : Product}
    (hf : b.inventory.find pid = some p) (hq : 0 < qty) (hle : qty ≤ p.quantity)
    (hck : (b.cart.map (fun e => e.1)).Nodup) (hpos : ∀ e ∈ b.cart, 0 < e.2) :
    (b.add_to_cart pid qty).1.undo_last.1.inventory.find pid = some p ∧
    (b.add_to_cart pid qty).1.undo_last.1.cart = b.cart ∧
    (b.add_to_cart pid qty).1.undo_last.1.undo_stack = b.undo_stack ∧
    (b.add_to_cart pid qty).1.undo_last.2 = UndoResult.undone qty p.name := by
  rw [add_to_cart_success hf hq hle]
  set g := cartGet b.cart pid with hg
  have hf1 : (b.inventory.update_quantity pid (p.quantity - qty)).find pid =
      some { p with quantity := p.quantity - qty } :=
    find_update_quantity_self hf (p.quantity - qty)
  have hshape := undo_last_add_shape
    { b with
        inventory := b.inventory.update_quantity pid (p.quantity - qty),
        cart := cartSet b.cart pid (g + qty),
        undo_stack := b.undo_stack ++ [("add", pid, qty)] }
    rfl hf1 (cartFind_cartSet b.cart pid (g + qty))
  rw [hshape]
  have hcart : (if g + qty - qty ≤ 0 then
      cartPop (cartSet (cartSet b.cart pid (g + qty)) pid (g + qty - qty)) pid
      else cartSet (cartSet b.cart pid (g + qty)) pid (g + qty - qty)) = b.cart := by
    rw [cartSet_cartSet]
    have hv : g + qty - qty = g := by omega
    rw [hv]
    by_cases hm : cartMem b.cart pid = true
    · obtain ⟨e, hec, hepid, hev⟩ := cartGet_mem hm
      have hgpos : 0 < g := by rw [hg, hev]; exact hpos e hec
      rw [if_neg (by omega)]
      exact cartSet_get_self b.cart pid hck hm
    · have hm' := bool_eq_false hm
      have hg0 : g = 0 := by rw [hg]; exact cartGet_of_not_mem hm'
      rw [hg0, if_pos (by omega), cartSet_of_not_mem b.cart pid 0 hm']
      exact cartPop_appendSet b.cart pid 0 hm'
  have hfind2 : ((b.inventory.update_quantity pid (p.quantity - qty)).update_quantity
      pid ({ p with quantity := p.quantity - qty }.quantity + qty)).find pid = some p := by
    rw [find_update_quantity_self hf1]
    have : p.quantity - qty + qty = p.quantity := by omega
    simp only [this]
  refine ⟨hfind2, ?_, rfl, rfl⟩
  simpa using hcart

theorem cartGet_cons_self {e : Int × Int} {t : List (Int × Int)} {pid : Int}
    (h : e.1 = pid) : cartGet (e :: t) pid = e.2 := by
  unfold cartGet
  rw [List.find?_cons_of_pos _ (by simp [h])]

theorem cartGet_cons_ne {e : Int × Int} {t : List (Int × Int)} {pid : Int}
    (h : e.1 ≠ pid) : cartGet (e :: t) pid = cartGet t pid := by
  unfold cartGet
  rw [List.find?_cons_of_neg _ (by simp [h])]

theorem mem_of_getLast_some {α : Type} {l : List α} {x : α}
    (h : l.getLast? = some x) : x ∈ l := by
  obtain ⟨hne, hx⟩ := List.mem_getLast?_eq_getLast (Option.mem_def.2 h)
  rw [hx]
  exact List.getLast_mem hne

/-! ### Totals -/

theorem foldl_subtotal (inv : Inventory) :
    ∀ (c : List (Int × Int)) (a : Rat),
      c.foldl (fun acc e =>
        match inv.find e.1 with
        | some prod => acc + prod.price * (e.2 : Rat)
        | none => acc) a =
      a + (c.map (fun e => linePrice inv e.1 * (e.2 : Rat))).sum
  | [], a => by simp
  | e :: t, a => by
    cases hf : inv.find e.1 with
    | none =>
      simp only [List.foldl_cons, hf, List.map_cons, List.sum_cons]
      rw [foldl_subtotal inv t a]
      unfold linePrice
      rw [hf]
      ring
    | some prod =>
      simp only [List.foldl_cons, hf, List.map_cons, List.sum_cons]
      rw [foldl_subtotal inv t (a + prod.price * (e.2 : Rat))]
      unfold linePrice
      rw [hf]
      ring

theorem compute_totals_subtotal (b : BillingSystem) :
    b.compute_totals.subtotal =
      (b.cart.map (fun e => linePrice b.inventory e.1 * (e.2 : Rat))).sum := by
  unfold BillingSystem.compute_totals
  simp only
  rw [foldl_subtotal]
  simp

theorem compute_totals_discount (b : BillingSystem) :
    b.compute_totals.discount =
      (if b.compute_totals.subtotal > 500 then ((10 : Rat) / 100) * b.compute_totals.subtotal
       else if b.compute_totals.subtotal > 200 then ((5 : Rat) / 100) * b.compute_totals.subtotal
       else 0) := rfl

theorem compute_totals_frame (b : BillingSystem) :
    b.compute_totals.inventory = b.inventory ∧
    b.compute_totals.cart = b.cart ∧
    b.compute_totals.undo_stack = b.undo_stack ∧
    b.compute_totals.customer_name = b.customer_name :=
  ⟨rfl, rfl, rfl, rfl⟩

/-! ### Checkout and clear -/

theorem on_checkout_empty {b : BillingSystem} (h : b.cart = []) :
    b.on_checkout = (b, none) := by
  unfold BillingSystem.on_checkout
  rw [if_pos (by simp [h])]

theorem on_checkout_nonempty {b : BillingSystem} (h : b.cart ≠ []) :
    b.on_checkout =
      (b.compute_totals.clear,
        some (b.compute_totals.subtotal, b.compute_totals.discount,
          b.compute_totals.subtotal - b.compute_totals.discount)) := by
  unfold BillingSystem.on_checkout BillingSystem.checkout_summary
  rw [if_neg (by simp [h])]

theorem clear_frame (b : BillingSystem) :
    b.clear.inventory = b.inventory ∧ b.clear.cart = [] ∧
    b.clear.undo_stack = [] ∧ b.clear.customer_name = "" :=
  ⟨rfl, rfl, rfl, rfl⟩

theorem on_clear_cart_inventory (b : BillingSystem) :
    b.on_clear_cart.inventory =
      b.cart.foldl (fun acc e =>
        match acc.find e.1 with
        | some prod => acc.update_quantity e.1 (prod.quantity + e.2)
        | none => acc) b.inventory := rfl

theorem on_clear_cart_frame (b : BillingSystem) :
    b.on_clear_cart.cart = [] ∧ b.on_clear_cart.undo_stack = [] ∧
    b.on_clear_cart.customer_name = "" :=
  ⟨rfl, rfl, rfl⟩

/-- Effect of the clear-cart restock fold on each product: its quantity
grows by its reserved cart quantity. -/
theorem clear_fold_find :
    ∀ (l : List (Int × Int)) (inv : Inventory),
      (l.map (fun e => e.1)).Nodup →
      (∀ e ∈ l, (inv.find e.1).isSome) →
      ∀ (pid : Int) (p : Product), inv.find pid = some p →
        (l.foldl (fun acc e =>
          match acc.find e.1 with
          | some prod => acc.update_quantity e.1 (prod.quantity + e.2)
          | none => acc) inv).find pid =
          some { p with quantity := p.quantity + cartGet l pid }
  | [], inv, _, _, pid, p, hf => by
    simp only [List.foldl_nil]
    have h0 : cartGet [] pid = 0 := rfl
    rw [h0, hf]
    norm_num
  | e :: t, inv, hn, hin, pid, p, hf => by
    simp only [List.map_cons, List.nodup_cons] at hn
    obtain ⟨he1, hn2⟩ := hn
    obtain ⟨pe, hpe⟩ := Option.isSome_iff_exists.1 (hin e (List.mem_cons_self e t))
    simp only [List.foldl_cons, hpe]
    have hin1 : ∀ x ∈ t, ((inv.update_quantity e.1 (pe.quantity + e.2)).find x.1).isSome := by
      intro x hx
      rw [find_update_quantity]
      have hx2 := hin x (List.mem_cons_of_mem e hx)
      cases hfx : inv.find x.1 with
      | none => rw [hfx] at hx2; exact absurd hx2 (by simp)
      | some px => simp
    by_cases hpid : e.1 = pid
    · have hpe' : pe = p := by
        rw [hpid] at hpe
        rw [hpe] at hf
        exact Option.some.inj hf
      subst hpe'
      have hf1 : (inv.update_quantity e.1 (pe.quantity + e.2)).find pid =
          some { pe with quantity := pe.quantity + e.2 } := by
        rw [← hpid]
        exact find_update_quantity_self hpe (pe.quantity + e.2)
      have hrec := clear_fold_find t (inv.update_quantity e.1 (pe.quantity + e.2))
        hn2 hin1 pid _ hf1
      rw [hrec]
      have hmt : cartMem t pid = false := by
        apply bool_eq_false
        intro hmem
        obtain ⟨x, hx, hx1, -⟩ := cartGet_mem hmem
        exact he1 (by rw [hpid]; exact hx1 ▸ List.mem_map_of_mem _ hx)
      rw [cartGet_of_not_mem hmt, cartGet_cons_self hpid]
      norm_num
    · have hf1 : (inv.update_quantity e.1 (pe.quantity + e.2)).find pid = some p := by
        rw [find_update_quantity, hf, Option.map_some',
          if_neg (by rw [(find_mem hf).2]; exact fun hh => hpid hh.symm)]
      have hrec := clear_fold_find t (inv.update_quantity e.1 (pe.quantity + e.2))
        hn2 hin1 pid p hf1
      rw [hrec, cartGet_cons_ne hpid]

/-! ### Heap completeness across the billing operations -/

theorem heapComplete_reserve {b : BillingSystem} (hc : HeapComplete b.inventory)
    (pid qty : Int) : HeapComplete (b.add_to_cart pid qty).1.inventory := by
  unfold BillingSystem.add_to_cart
  cases hf : b.inventory.find pid with
  | none => exact hc
  | some prod =>
    simp only
    by_cases h1 : qty ≤ 0
    · rw [if_pos h1]; exact hc
    · rw [if_neg h1]
      by_cases h2 : prod.quantity < qty
      · rw [if_pos h2]; exact hc
      · rw [if_neg h2]; exact heapComplete_update hc pid (prod.quantity - qty)

theorem heapComplete_undo {b : BillingSystem} (hc : HeapComplete b.inventory) :
    HeapComplete b.undo_last.1.inventory := by
  unfold BillingSystem.undo_last
  cases hl : b.undo_stack.getLast? with
  | none => exact hc
  | some a =>
    obtain ⟨action, pid, qty⟩ := a
    simp only
    by_cases ha : action = "add"
    · rw [if_pos ha]
      cases hf : b.inventory.find pid with
      | none => exact hc
      | some prod =>
        simp only
        cases List.find? (fun e => e.1 == pid) b.cart with
        | none => exact heapComplete_update hc pid (prod.quantity + qty)
        | some e => exact heapComplete_update hc pid (prod.quantity + qty)
    · rw [if_neg ha]; exact hc

theorem heapComplete_fold :
    ∀ (l : List (Int × Int)) (inv : Inventory), HeapComplete inv →
      HeapComplete (l.foldl (fun acc e =>
        match acc.find e.1 with
        | some prod => acc.update_quantity e.1 (prod.quantity + e.2)
        | none => acc) inv)
  | [], _, hc => hc
  | e :: t, inv, hc => by
    simp only [List.foldl_cons]
    cases hf : inv.find e.1 with
    | none =>
      simp only [hf]
      exact heapComplete_fold t inv hc
    | some prod =>
      simp only [hf]
      exact heapComplete_fold t _ (heapComplete_update hc e.1 (prod.quantity + e.2))

theorem heapComplete_clear_cart {b : BillingSystem} (hc : HeapComplete b.inventory) :
    HeapComplete b.on_clear_cart.inventory := by
  rw [on_clear_cart_inventory]
  exact heapComplete_fold b.cart b.inventory hc

/-! ### Product ids are never removed -/

theorem idPresent_update {inv : Inventory} {i : Int} (h : IdPresent inv i)
    (pid q : Int) : IdPresent (inv.update_quantity pid q) i := by
  obtain ⟨p, hp, hpi⟩ := h
  rcases update_quantity_cases inv pid q with ⟨-, he⟩ | ⟨p1, -, he⟩
  · rw [he]; exact ⟨p, hp, hpi⟩
  · rw [he]
    refine ⟨if p.id = pid then { p with quantity := q } else p,
      List.mem_map_of_mem _ hp, ?_⟩
    by_cases hcond : p.id = pid
    · rw [if_pos hcond]
      simpa using hpi
    · rw [if_neg hcond]
      exact hpi

theorem idPresent_add {inv : Inventory} {i : Int} (h : IdPresent inv i)
    (prod : Product) : IdPresent (inv.add_product prod).1 i := by
  obtain ⟨p, hp, hpi⟩ := h
  rcases add_product_cases inv prod with he | ⟨-, he⟩
  · rw [he]; exact ⟨p, hp, hpi⟩
  · rw [he]; exact ⟨p, List.mem_append_left _ hp, hpi⟩

theorem idPresent_fold {i : Int} :
    ∀ (l : List (Int × Int)) (inv : Inventory), IdPresent inv i →
      IdPresent (l.foldl (fun acc e =>
        match acc.find e.1 with
        | some prod => acc.update_quantity e.1 (prod.quantity + e.2)
        | none => acc) inv) i
  | [], _, h => h
  | e :: t, inv, h => by
    simp only [List.foldl_cons]
    cases hf : inv.find e.1 with
    | none =>
      simp only [hf]
      exact idPresent_fold t inv h
    | some prod =>
      simp only [hf]
      exact idPresent_fold t _ (idPresent_update h e.1 (prod.quantity + e.2))

theorem undoIdsPresent_reserve {b : BillingSystem} (h : UndoIdsPresent b)
    (pid qty : Int) : UndoIdsPresent (b.add_to_cart pid qty).1 := by
  unfold BillingSystem.add_to_cart
  cases hf : b.inventory.find pid with
  | none => exact h
  | some prod =>
    simp only
    by_cases h1 : qty ≤ 0
    · rw [if_pos h1]; exact h
    · rw [if_neg h1]
      by_cases h2 : prod.quantity < qty
      · rw [if_pos h2]; exact h
      · rw [if_neg h2]
        intro a ha
        rcases List.mem_append.1 ha with hold | hnew
        · exact idPresent_update (h a hold) pid (prod.quantity - qty)
        · rcases List.mem_singleton.1 hnew with rfl
          exact idPresent_update
            ⟨prod, List.mem_of_find?_eq_some hf, (find_mem hf).2⟩
            pid (prod.quantity - qty)

theorem undoIdsPresent_undo {b : BillingSystem} (h : UndoIdsPresent b) :
    UndoIdsPresent b.undo_last.1 := by
  have hsub : ∀ a ∈ b.undo_stack.dropLast, a ∈ b.undo_stack :=
    fun a ha => (List.dropLast_sublist b.undo_stack).subset ha
  unfold BillingSystem.undo_last
  cases hl : b.undo_stack.getLast? with
  | none => exact h
  | some x =>
    obtain ⟨action, pid, qty⟩ := x
    simp only
    by_cases ha : action = "add"
    · rw [if_pos ha]
      cases hf : b.inventory.find pid with
      | none => exact fun a ha2 => h a (hsub a ha2)
      | some prod =>
        simp only
        cases List.find? (fun e => e.1 == pid) b.cart with
        | none =>
          exact fun a ha2 =>
            idPresent_update (h a (hsub a ha2)) pid (prod.quantity + qty)
        | some e =>
          exact fun a ha2 =>
            idPresent_update (h a (hsub a ha2)) pid (prod.quantity + qty)
    · rw [if_neg ha]
      exact fun a ha2 => h a (hsub a ha2)

theorem undoIdsPresent_checkout {b : BillingSystem} (h : UndoIdsPresent b) :
    UndoIdsPresent b.on_checkout.1 := by
  by_cases hc : b.cart = []
  · rw [on_checkout_empty hc]; exact h
  · rw [on_checkout_nonempty hc]
    intro a ha
    exact absurd ha (List.not_mem_nil a)

theorem undoIdsPresent_clear_cart {b : BillingSystem} :
    UndoIdsPresent b.on_clear_cart :=
  fun a ha => absurd ha (List.not_mem_nil a)

/-- Every billing state reachable through the public operations keeps all
undo-stack product ids present in the inventory index. -/
theorem sysReachable_undoIds {b : BillingSystem} (hr : SysReachable b) :
    UndoIdsPresent b := by
  induction hr with
  | refl => exact fun a ha => absurd ha (List.not_mem_nil a)
  | tail _ hstep ih =>
    cases hstep with
    | add_product prod => exact fun a ha => idPresent_add (ih a ha) prod
    | reserve pid qty => exact undoIdsPresent_reserve ih pid qty
    | undo => exact undoIdsPresent_undo ih
    | checkout => exact undoIdsPresent_checkout ih
    | clear_cart => exact undoIdsPresent_clear_cart
    | totals => exact ih
    | set_customer s => exact ih

/-- With all undo ids present, `undo_last` can never take the
`"Unexpected error: product missing."` branch. -/
theorem undo_no_missing {b : BillingSystem} (h : UndoIdsPresent b) :
    b.undo_last.2 ≠ UndoResult.productMissing := by
  unfold BillingSystem.undo_last
  cases hl : b.undo_stack.getLast? with
  | none => simp
  | some x =>
    obtain ⟨action, pid, qty⟩ := x
    simp only
    obtain ⟨p, hp, hpi⟩ := h (action, pid, qty) (mem_of_getLast_some hl)
    have hfind : (b.inventory.find pid).isSome :=
      List.find?_isSome.2 ⟨p, hp, by simp [hpi]⟩
    by_cases ha : action = "add"
    · rw [if_pos ha]
      cases hf : b.inventory.find pid with
      | none =>
        rw [hf] at hfind
        exact absurd hfind (by simp)
      | some prod =>
        simp only
        cases List.find? (fun e => e.1 == pid) b.cart with
        | none => simp
        | some e => simp
    · rw [if_neg ha]
      simp

/-! ### Claim theorems -/

/-- C3: `compute_totals` sets the subtotal to the sum over cart entries of
current price(id) · qty, applies exactly one discount slab evaluated on
that subtotal in descending threshold order (10% above 500, 5% above 200
up to 500, else 0), and the checkout total is subtotal − discount. -/
theorem C3_discount_slabs (b : BillingSystem) :
    b.compute_totals.subtotal =
      (b.cart.map (fun e => linePrice b.inventory e.1 * (e.2 : Rat))).sum ∧
    (b.compute_totals.subtotal > 500 →
      b.compute_totals.discount = ((10 : Rat) / 100) * b.compute_totals.subtotal) ∧
    (b.compute_totals.subtotal > 200 ∧ b.compute_totals.subtotal ≤ 500 →
      b.compute_totals.discount = ((5 : Rat) / 100) * b.compute_totals.subtotal) ∧
    (b.compute_totals.subtotal ≤ 200 → b.compute_totals.discount = 0) ∧
    b.checkout_summary.2.2.2 = b.compute_totals.subtotal - b.compute_totals.discount := by
  refine ⟨compute_totals_subtotal b, ?_, ?_, ?_, rfl⟩
  · intro h
    rw [compute_totals_discount, if_pos h]
  · intro h
    rw [compute_totals_discount, if_neg (not_lt.2 h.2), if_pos h.1]
  · intro h
    rw [compute_totals_discount,
      if_neg (not_lt.2 (le_trans h (by norm_num))), if_neg (not_lt.2 h)]

theorem C3_discount_slabs_witness :
    (sampleB.compute_totals.subtotal > 200 ∧ sampleB.compute_totals.subtotal ≤ 500) ∧
    sampleB.compute_totals.discount = ((5 : Rat) / 100) * sampleB.compute_totals.subtotal := by
  have hsub : sampleB.compute_totals.subtotal = 300 := by
    rw [compute_totals_subtotal]
    norm_num [sampleB, sampleInv, linePrice, Inventory.find, List.find?]
  have hpre : sampleB.compute_totals.subtotal > 200 ∧
      sampleB.compute_totals.subtotal ≤ 500 := by
    rw [hsub]
    norm_num
  exact ⟨hpre, (C3_discount_slabs sampleB).2.2.1 hpre⟩

/-- C4: `reserve` (`add_to_cart` in the code) fails with the not-found
message for an unknown id, the invalid-quantity message for `qty ≤ 0`, and
the insufficient-stock message when `qty` exceeds the current quantity; on
each failure the whole state (Inventory, Cart, UndoLog) is returned
unchanged. -/
theorem C4_reserve_failures (b : BillingSystem) (pid qty : Int) :
    (b.inventory.find pid = none → b.add_to_cart pid qty = (b, AddResult.notFound)) ∧
    (∀ p, b.inventory.find pid = some p → qty ≤ 0 →
      b.add_to_cart pid qty = (b, AddResult.invalidQuantity)) ∧
    (∀ p, b.inventory.find pid = some p → 0 < qty → p.quantity < qty →
      b.add_to_cart pid qty = (b, AddResult.insufficientStock)) :=
  ⟨fun h => add_to_cart_notFound h,
   fun _ hf hq => add_to_cart_invalidQty hf hq,
   fun _ hf hq hlt => add_to_cart_insufficient hf (by omega) hlt⟩

theorem C4_reserve_failures_witness :
    sampleB.add_to_cart 2 1 = (sampleB, AddResult.notFound) ∧
    sampleB.add_to_cart 1 0 = (sampleB, AddResult.invalidQuantity) ∧
    sampleB.add_to_cart 1 6 = (sampleB, AddResult.insufficientStock) :=
  ⟨(C4_reserve_failures sampleB 2 1).1 (by decide),
   (C4_reserve_failures sampleB 1 0).2.1 ⟨1, "X", 100, 5⟩ (by decide) (by decide),
   (C4_reserve_failures sampleB 1 6).2.2 ⟨1, "X", 100, 5⟩ (by decide) (by decide) (by decide)⟩

/-- C5: a successful `reserve(id, qty)` decrements the product's inventory
quantity by `qty`, increments `Cart[id]` by `qty` (0 if absent), and pushes
the reservation action onto the UndoLog — the code's tag for the spec's
"reserve" action kind is the string `"add"`.  All of this is one step of
the single function `add_to_cart`. -/
theorem C5_reserve_success (b : BillingSystem) (pid qty : Int) (p : Product)
    (hf : b.inventory.find pid = some p) (hq : 0 < qty) (hle : qty ≤ p.quantity) :
    (b.add_to_cart pid qty).1.inventory.find pid =
      some { p with quantity := p.quantity - qty } ∧
    cartGet (b.add_to_cart pid qty).1.cart pid = cartGet b.cart pid + qty ∧
    (b.add_to_cart pid qty).1.undo_stack = b.undo_stack ++ [("add", pid, qty)] ∧
    (b.add_to_cart pid qty).2 = AddResult.added p.name qty (p.price * (qty : Rat)) := by
  rw [add_to_cart_success hf hq hle]
  exact ⟨find_update_quantity_self hf _, cartGet_cartSet b.cart pid _, rfl, rfl⟩

theorem C5_reserve_success_witness :
    (sampleB.add_to_cart 1 2).1.inventory.find 1 = some ⟨1, "X", 100, 3⟩ ∧
    cartGet (sampleB.add_to_cart 1 2).1.cart 1 = cartGet sampleB.cart 1 + 2 ∧
    (sampleB.add_to_cart 1 2).1.undo_stack = sampleB.undo_stack ++ [("add", 1, 2)] ∧
    (sampleB.add_to_cart 1 2).2 = AddResult.added "X" 2 ((100 : Rat) * (2 : Int)) :=
  C5_reserve_success sampleB 1 2 ⟨1, "X", 100, 5⟩ (by decide) (by decide) (by decide)

/-- C6: a successful `reserve` immediately followed by `undo_last` restores
the product record, the full cart contents (an entry reaching zero is
removed, not kept at zero) and the undo stack (hence its depth) exactly;
and `undo_last` on an empty log fails with the empty-log message leaving
the state unchanged. -/
theorem C6_undo_inverse (b : BillingSystem) (pid qty : Int) (p : Product) :
    (b.inventory.find pid = some p → 0 < qty → qty ≤ p.quantity → CartWF b.cart →
      (b.add_to_cart pid qty).1.undo_last.1.inventory.find pid = some p ∧
      (b.add_to_cart pid qty).1.undo_last.1.cart = b.cart ∧
      (b.add_to_cart pid qty).1.undo_last.1.undo_stack = b.undo_stack ∧
      (b.add_to_cart pid qty).1.undo_last.1.undo_stack.length = b.undo_stack.length) ∧
    (b.undo_stack = [] → b.undo_last = (b, UndoResult.nothingToUndo)) := by
  constructor
  · intro hf hq hle hwf
    obtain ⟨h1, h2, h3, -⟩ := reserve_undo_restore hf hq hle hwf.1 hwf.2
    exact ⟨h1, h2, h3, by rw [h3]⟩
  · exact fun h => undo_last_empty h

theorem C6_undo_inverse_witness :
    ((sampleB.add_to_cart 1 2).1.undo_last.1.inventory.find 1 = some ⟨1, "X", 100, 5⟩ ∧
     (sampleB.add_to_cart 1 2).1.undo_last.1.cart = sampleB.cart ∧
     (sampleB.add_to_cart 1 2).1.undo_last.1.undo_stack = sampleB.undo_stack ∧
     (sampleB.add_to_cart 1 2).1.undo_last.1.undo_stack.length =
       sampleB.undo_stack.length) ∧
    sampleB.undo_last = (sampleB, UndoResult.nothingToUndo) :=
  ⟨(C6_undo_inverse sampleB 1 2 ⟨1, "X", 100, 5⟩).1 (by decide) (by decide) (by decide)
     (by constructor <;> decide),
   (C6_undo_inverse sampleB 1 2 ⟨1, "X", 100, 5⟩).2 rfl⟩

/-- C7: checkout on an empty cart is rejected without any mutation and
produces no receipt; on a nonempty cart it recomputes the totals (the
receipt carries subtotal, discount and subtotal − discount), then clears
the cart, the undo log and the customer name, leaving the inventory — in
particular every product quantity — untouched. -/
theorem C7_checkout (b : BillingSystem) :
    (b.cart = [] → b.on_checkout = (b, none)) ∧
    (b.cart ≠ [] →
      b.on_checkout.2 = some (b.compute_totals.subtotal, b.compute_totals.discount,
        b.compute_totals.subtotal - b.compute_totals.discount) ∧
      b.on_checkout.1.cart = [] ∧
      b.on_checkout.1.undo_stack = [] ∧
      b.on_checkout.1.customer_name = "" ∧
      b.on_checkout.1.inventory = b.inventory) := by
  refine ⟨fun h => on_checkout_empty h, fun h => ?_⟩
  rw [on_checkout_nonempty h]
  exact ⟨rfl, rfl, rfl, rfl, rfl⟩

theorem C7_checkout_witness :
    (sampleB.on_checkout.2 = some (sampleB.compute_totals.subtotal,
        sampleB.compute_totals.discount,
        sampleB.compute_totals.subtotal - sampleB.compute_totals.discount) ∧
      sampleB.on_checkout.1.cart = [] ∧
      sampleB.on_checkout.1.undo_stack = [] ∧
      sampleB.on_checkout.1.customer_name = "" ∧
      sampleB.on_checkout.1.inventory = sampleB.inventory) ∧
    (BillingSystem.init sampleInv).on_checkout = (BillingSystem.init sampleInv, none) :=
  ⟨(C7_checkout sampleB).2 (by decide),
   (C7_checkout (BillingSystem.init sampleInv)).1 rfl⟩

/-- C8: `clear_cart` restores, for every cart entry `(id, qty)`, the
reserved `qty` back to that product's inventory quantity, and then empties
both the cart and the undo log. -/
theorem C8_clear_cart (b : BillingSystem)
    (hck : (b.cart.map (fun e => e.1)).Nodup)
    (hin : ∀ e ∈ b.cart, (b.inventory.find e.1).isSome) :
    b.on_clear_cart.cart = [] ∧
    b.on_clear_cart.undo_stack = [] ∧
    ∀ pid p, b.inventory.find pid = some p →
      b.on_clear_cart.inventory.find pid =
        some { p with quantity := p.quantity + cartGet b.cart pid } := by
  refine ⟨rfl, rfl, fun pid p hf => ?_⟩
  rw [on_clear_cart_inventory]
  exact clear_fold_find b.cart b.inventory hck hin pid p hf

theorem C8_clear_cart_witness :
    sampleB.on_clear_cart.cart = [] ∧
    sampleB.on_clear_cart.undo_stack = [] ∧
    sampleB.on_clear_cart.inventory.find 1 = some ⟨1, "X", 100, 8⟩ := by
  have h := C8_clear_cart sampleB (by decide) (by decide)
  refine ⟨h.1, h.2.1, ?_⟩
  have h2 := h.2.2 1 ⟨1, "X", 100, 5⟩ (by decide)
  rw [h2]
  decide

/-- C9: every operation preserves heap completeness — each product's
current `(quantity, id)` snapshot is in the heap (every quantity change
pushes a fresh snapshot) — and a `k_lowest_stock` read pushes back all
popped entries, leaving the inventory (hence the heap) identical, so
repeated queries return the same result. -/
theorem C9_heap_invariant :
    (∀ inv prod, HeapComplete inv → HeapComplete (inv.add_product prod).1) ∧
    (∀ inv pid q, HeapComplete inv → HeapComplete (inv.update_quantity pid q)) ∧
    (∀ (b : BillingSystem) (pid qty : Int), HeapComplete b.inventory →
      HeapComplete (b.add_to_cart pid qty).1.inventory) ∧
    (∀ b : BillingSystem, HeapComplete b.inventory →
      HeapComplete b.undo_last.1.inventory) ∧
    (∀ b : BillingSystem, HeapComplete b.inventory →
      HeapComplete b.on_clear_cart.inventory) ∧
    (∀ inv k, HeapSorted inv → (inv.k_lowest_stock k).2 = inv) ∧
    (∀ inv k, HeapSorted inv →
      ((inv.k_lowest_stock k).2.k_lowest_stock k).1 = (inv.k_lowest_stock k).1) :=
  ⟨fun _ prod hc => heapComplete_add hc prod,
   fun _ pid q hc => heapComplete_update hc pid q,
   fun _ pid qty hc => heapComplete_reserve hc pid qty,
   fun _ hc => heapComplete_undo hc,
   fun _ hc => heapComplete_clear_cart hc,
   fun inv k hs => k_lowest_stock_preserves inv k hs,
   fun inv k hs => by rw [k_lowest_stock_preserves inv k hs]⟩

theorem C9_heap_invariant_witness :
    HeapComplete (sampleInv.update_quantity 1 4) ∧
    (sampleInv.k_lowest_stock 3).2 = sampleInv ∧
    ((sampleInv.k_lowest_stock 3).2.k_lowest_stock 3).1 = (sampleInv.k_lowest_stock 3).1 :=
  ⟨C9_heap_invariant.2.1 sampleInv 1 4 (by unfold HeapComplete; decide),
   C9_heap_invariant.2.2.2.2.2.1 sampleInv 3 (by unfold HeapSorted; decide),
   C9_heap_invariant.2.2.2.2.2.2 sampleInv 3 (by unfold HeapSorted; decide)⟩

/-- C10: in every state reachable through the public operations, each
undo-stack action names a product id still present in the inventory index
(products are never removed), so the `"Unexpected error: product
missing."` branch of `undo_last` can never be taken. -/
theorem C10_undo_ids_safe (b : BillingSystem) (hr : SysReachable b) :
    UndoIdsPresent b ∧ b.undo_last.2 ≠ UndoResult.productMissing :=
  ⟨sysReachable_undoIds hr, undo_no_missing (sysReachable_undoIds hr)⟩

theorem C10_undo_ids_safe_witness :
    UndoIdsPresent (({ BillingSystem.init Inventory.empty with
        inventory := ((BillingSystem.init Inventory.empty).inventory.add_product
          ⟨1, "X", 100, 5⟩).1 } : BillingSystem).add_to_cart 1 2).1 ∧
    (({ BillingSystem.init Inventory.empty with
        inventory := ((BillingSystem.init Inventory.empty).inventory.add_product
          ⟨1, "X", 100, 5⟩).1 } : BillingSystem).add_to_cart 1 2).1.undo_last.2 ≠
      UndoResult.productMissing :=
  C10_undo_ids_safe _
    (Relation.ReflTransGen.tail
      (Relation.ReflTransGen.tail Relation.ReflTransGen.refl
        (SysStep.add_product (BillingSystem.init Inventory.empty) ⟨1, "X", 100, 5⟩))
      (SysStep.reserve _ 1 2))

/-- In the section-8 scenario the recomputed subtotal is exactly 500 and
the discount slab `subtotal > 200` fires: discount 25. -/
theorem riceB_totals :
    riceB.compute_totals.subtotal = 500 ∧ riceB.compute_totals.discount = 25 := by
  have hcart : riceB.cart = [(1, 10)] := by decide
  have hfind : riceB.inventory.find 1 = some ⟨1, "Rice", 50, 90⟩ := by decide
  have hline : linePrice riceB.inventory 1 = 50 := by
    unfold linePrice
    rw [hfind]
  have hsub : riceB.compute_totals.subtotal = 500 := by
    rw [compute_totals_subtotal, hcart]
    simp only [List.map_cons, List.map_nil, List.sum_cons, List.sum_nil, hline]
    norm_num
  refine ⟨hsub, ?_⟩
  rw [compute_totals_discount, hsub]
  norm_num

/-- C2 (counterexample): after the successful reserve(1, 10) of the
section-8 scenario, `compute_totals` yields subtotal 500.00 but discount
25.00 — not 0.00 as the claim states: at subtotal exactly 500 the slab
`subtotal > 200` applies. -/
theorem C2_counterexample :
    ((BillingSystem.init
        (Inventory.empty.add_product ⟨1, "Rice", 50, 100⟩).1).add_to_cart 1 10).2 =
      AddResult.added "Rice" 10 ((50 : Rat) * ((10 : Int) : Rat)) ∧
    riceB.compute_totals.subtotal = 500 ∧
    ¬ riceB.compute_totals.discount = 0 := by
  refine ⟨rfl, riceB_totals.1, ?_⟩
  rw [riceB_totals.2]
  norm_num

/-- C2 (amended): in the section-8 scenario `compute_totals` yields
subtotal 500.00 and discount 25.00, i.e. 5% of the subtotal: exactly 500
does not qualify for the 10% slab (500 is not > 500) but does qualify for
the 5% slab (500 > 200). -/
theorem C2_totals_at_500 :
    riceB.compute_totals.subtotal = 500 ∧
    riceB.compute_totals.discount = 25 ∧
    ¬ ((500 : Rat) > 500) ∧ ((500 : Rat) > 200) ∧
    riceB.compute_totals.discount =
      ((5 : Rat) / 100) * riceB.compute_totals.subtotal := by
  refine ⟨riceB_totals.1, riceB_totals.2, by norm_num, by norm_num, ?_⟩
  rw [riceB_totals.1, riceB_totals.2]
  norm_num

/-- C1 (counterexample): in a state reachable by one `add_product` and two
quantity changes (to 5, then back to 10), the heap holds two snapshots
matching the product's current quantity and `k_lowest_stock 2` returns the
single existing product twice — not the "k (or fewer, if fewer distinct
products exist) distinct products". -/
theorem C1_counterexample :
    InvReachable (((Inventory.empty.add_product
        ⟨1, "A", 1, 10⟩).1.update_quantity 1 5).update_quantity 1 10) ∧
    ((((Inventory.empty.add_product
        ⟨1, "A", 1, 10⟩).1.update_quantity 1 5).update_quantity 1 10).k_lowest_stock 2).1 =
      [⟨1, "A", 1, 10⟩, ⟨1, "A", 1, 10⟩] ∧
    (((Inventory.empty.add_product
        ⟨1, "A", 1, 10⟩).1.update_quantity 1 5).update_quantity 1 10).products =
      [⟨1, "A", 1, 10⟩] :=
  ⟨Relation.ReflTransGen.tail
      (Relation.ReflTransGen.tail
        (Relation.ReflTransGen.tail Relation.ReflTransGen.refl (InvStep.add _ _))
        (InvStep.update _ 1 5))
      (InvStep.update _ 1 10),
   by decide, by decide⟩

/-- C1 (amended): on every inventory reachable by `add_product` calls and
quantity changes, `k_lowest_stock k` returns only current (never stale)
product records in ascending (quantity, id) order; a product may appear
several times when the heap holds several snapshots equal to its current
quantity.  When each product's current snapshot occurs exactly once in the
heap, the result is exactly the k (or fewer, if fewer products exist)
distinct products with the smallest quantities, ties broken by ascending
id. -/
theorem C1_low_stock_query (inv : Inventory) (k : Nat) (hr : InvReachable inv) :
    (List.Sorted prodLe (inv.k_lowest_stock k).1 ∧
      ∀ p ∈ (inv.k_lowest_stock k).1, inv.find p.id = some p) ∧
    (HeapUniqueValid inv →
      (inv.k_lowest_stock k).1 = (sortedByStock inv.products).take k ∧
      (inv.k_lowest_stock k).1.length = min k inv.products.length) := by
  obtain ⟨hs, hn, hc⟩ := invReachable_invariants hr
  refine ⟨⟨k_lowest_stock_sorted k hs, fun p hp => k_lowest_stock_current hp⟩,
    fun hu => ?_⟩
  refine ⟨k_lowest_stock_results k hs hn hc hu, ?_⟩
  rw [k_lowest_stock_results k hs hn hc hu, List.length_take]
  congr 1
  exact (List.perm_insertionSort prodLe inv.products).length_eq

theorem C1_low_stock_query_witness :
    (((Inventory.empty.add_product ⟨1, "A", 1, 5⟩).1.add_product
        ⟨2, "B", 1, 3⟩).1.k_lowest_stock 5).1 =
      [⟨2, "B", 1, 3⟩, ⟨1, "A", 1, 5⟩] := by
  have hr : InvReachable ((Inventory.empty.add_product ⟨1, "A", 1, 5⟩).1.add_product
      ⟨2, "B", 1, 3⟩).1 :=
    Relation.ReflTransGen.tail
      (Relation.ReflTransGen.tail Relation.ReflTransGen.refl (InvStep.add _ _))
      (InvStep.add _ _)
  rw [((C1_low_stock_query _ 5 hr).2 (by unfold HeapUniqueValid; decide)).1]
  decide
